import Mathlib

/-!
Verification of the obsidian-for-hugo converter.

The repository contains three variants of the same program (two in
`main.go`, one further variant in an unnamed file).  The definitions below
embed the content-transformation pipeline of those variants at the level of
`List Char` / `String`:

* the wiki-link rewriter (`convertWikiLinks` from the unnamed variant and
  the `convertContent` function from `main.go`, which differ inside the
  heading branch);
* the front-matter normalizer (`convertFrontMatter` /
  `addFallbackFrontMatterTitle`/`Slug`/`Date`), with the third-party
  front-matter/YAML codec modelled from the spec since its source is not
  part of the repository;
* the recursive tree walker (`convertAllRecursively` / `convertFile`),
  over an abstract filesystem tree;
* a small interleaving semantics for the goroutine dispatch performed by
  the walker.

Machine-level details that the claims do not touch (file permissions,
`os.Mkdir` error codes) are not modelled.
-/

namespace ObsidianForHugo

/-! ## Characters

Go's `strings.ToLower` is Unicode-aware; all inputs relevant to the claims
are ASCII, where it agrees with `Char.toLower` (adds 32 to `A`–`Z`).
-/

/-- The character class of the Go regexp `[^a-zA-Z0-9]` (its complement):
`true` exactly on ASCII letters and digits. -/
def isAlnum (c : Char) : Bool :=
  ('a' ≤ c && c ≤ 'z') || ('A' ≤ c && c ≤ 'Z') || ('0' ≤ c && c ≤ '9')

/-- `strings.ToLower`, restricted to the ASCII plane (written as an
explicit table so every branch is a literal): `A`–`Z` map to `a`–`z`,
everything else is unchanged. -/
def toLowerA (c : Char) : Char :=
  match c with
  | 'A' => 'a' | 'B' => 'b' | 'C' => 'c' | 'D' => 'd' | 'E' => 'e'
  | 'F' => 'f' | 'G' => 'g' | 'H' => 'h' | 'I' => 'i' | 'J' => 'j'
  | 'K' => 'k' | 'L' => 'l' | 'M' => 'm' | 'N' => 'n' | 'O' => 'o'
  | 'P' => 'p' | 'Q' => 'q' | 'R' => 'r' | 'S' => 's' | 'T' => 't'
  | 'U' => 'u' | 'V' => 'v' | 'W' => 'w' | 'X' => 'x' | 'Y' => 'y'
  | 'Z' => 'z'
  | c => c

/-! ## Slug fallback (`addFallbackFrontMatterSlug`, `convertFrontMatter`)

Source:
```
slugifiedTitle := slugifyRegex.ReplaceAllString(frontMatter.Title, "-")
frontMatter.Slug = strings.ToLower(slugifiedTitle)
```
`slugifyRegex` is `[^a-zA-Z0-9]`, a single-character class, so
`ReplaceAllString` replaces each matching character by `-` independently.
-/

/-- First pass: `slugifyRegex.ReplaceAllString(title, "-")`. -/
def slugifyReplace (l : List Char) : List Char :=
  l.map (fun c => if isAlnum c then c else '-')

/-- Both passes: replacement followed by `strings.ToLower`. -/
def slugifyL (l : List Char) : List Char :=
  (slugifyReplace l).map toLowerA

/-- String wrapper for the slug fallback derivation. -/
def slugifyS (s : String) : String := ⟨slugifyL s.data⟩

/-! ## Title fallback (`convertFile`)

Source:
```
file.Title = strings.ReplaceAll(strings.ReplaceAll(file.Name, ".md", ""), "#", "")
```
`strings.ReplaceAll(s, ".md", "")` removes the leftmost occurrence of
`.md` and continues scanning after it, i.e. removes all non-overlapping
occurrences left to right.
-/

/-- `strings.ReplaceAll(s, ".md", "")` on character lists:
removes every (leftmost-first, non-overlapping) occurrence of `.md`. -/
def removeMd : List Char → List Char
  | [] => []
  | [c] => [c]
  | [c, d] => [c, d]
  | c :: d :: e :: rest =>
    if c = '.' && d = 'm' && e = 'd' then removeMd rest
    else c :: removeMd (d :: e :: rest)

/-- `strings.ReplaceAll(s, "#", "")`: a single-character pattern, so this
is a filter. -/
def removeHash (l : List Char) : List Char :=
  l.filter (fun c => !(c = '#'))

/-- `strings.ReplaceAll(s, ".md", "")` as a `String` function. -/
def removeMdS (s : String) : String := ⟨removeMd s.data⟩

/-- Whether `.md` occurs anywhere in the list (the side condition "the
extension occurs only at the very end" is phrased with it). -/
def hasMd : List Char → Bool
  | [] => false
  | [_] => false
  | [_, _] => false
  | c :: d :: e :: rest => (c = '.' && d = 'm' && e = 'd') || hasMd (d :: e :: rest)

/-- The fallback title derived from a file's base name
(`convertFile` in both variants): remove every `.md`, then every `#`. -/
def fileTitleOf (name : String) : String := ⟨removeHash (removeMd name.data)⟩

/-! ## Wiki-link rewriting

The regexp is `\[\[(.*?)\]\]` and the rewrite is `ReplaceAllFunc`.  In Go's
RE2 semantics this takes, repeatedly, the leftmost position where `[[` is
followed (without an intervening newline, since `.` does not match `\n`)
by `]]`, with the non-greedy group ending at the earliest such `]]`;
scanning resumes after the consumed match.
-/

/-- Scan for the earliest `]]` not preceded by a newline.  Returns the
group contents and the remainder after the `]]`. -/
def findClose : List Char → Option (List Char × List Char)
  | [] => none
  | [_] => none
  | c :: d :: rest =>
    if c = '\n' then none
    else if c = ']' && d = ']' then some ([], rest)
    else
      match findClose (d :: rest) with
      | some (a, b) => some (c :: a, b)
      | none => none

/-- One pass of `wikiLinkRegex.ReplaceAllFunc(contents, repl)`, written
with explicit fuel so that the definition is structurally recursive (the
fuel never runs out when it starts at the length of the input: every
recursive call strictly shortens the input). -/
def scanGo (repl : List Char → List Char) : Nat → List Char → List Char
  | 0, l => l
  | _ + 1, [] => []
  | _ + 1, [c] => [c]
  | fuel + 1, c :: d :: rest =>
    if c = '[' && d = '[' then
      match findClose rest with
      | some (content, rest2) => repl content ++ scanGo repl fuel rest2
      | none => c :: scanGo repl fuel (d :: rest)
    else c :: scanGo repl fuel (d :: rest)

/-- `wikiLinkRegex.ReplaceAllFunc(contents, repl)`. -/
def scanLinks (repl : List Char → List Char) (l : List Char) : List Char :=
  scanGo repl l.length l

/-! ### The two replacement callbacks -/

/-- `strings.Index(s, "#")`: index of the first `#`, or `-1`. -/
def goIndexHash (l : List Char) : Int :=
  match l.findIdx? (fun c => c = '#') with
  | some i => (i : Int)
  | none => -1

/-- `strings.ReplaceAll(heading, " ", "-")`. -/
def replaceSpaces (l : List Char) : List Char :=
  l.map (fun c => if c = ' ' then '-' else c)

/-- Render `[%s]({{< ref "%s#%s" >}})` (page, page, heading). -/
def refWithHeading (page heading : List Char) : List Char :=
  "[".data ++ page ++ "](\x7b\x7b< ref \"".data ++ page ++ "#".data ++
    heading ++ "\" >\x7d\x7d)".data

/-- Render `[%s]({{< ref "%s" >}})` (link, link). -/
def refNoHeading (link : List Char) : List Char :=
  "[".data ++ link ++ "](\x7b\x7b< ref \"".data ++ link ++ "\" >\x7d\x7d)".data

/-- The callback of `convertWikiLinks` (unnamed-file variant): the heading
is extracted from the link *before* the link is truncated at the first
`#`. -/
def wikiLinkReplace (link : List Char) : List Char :=
  if link.contains '#' then
    let heading := link.drop (goIndexHash link + 1).toNat
    let heading := replaceSpaces heading
    let heading := heading.map toLowerA
    let page := link.take (goIndexHash link).toNat
    refWithHeading page heading
  else refNoHeading link

/-- The callback of `convertContent` (`main.go` variant): the link is
truncated at the first `#` *first*, and the heading is then extracted from
the already-truncated link (`strings.Index` on it returns `-1`, so the
slice `link[0:]` is the whole truncated link). -/
def contentReplace (link0 : List Char) : List Char :=
  if link0.contains '#' then
    let link := link0.take (goIndexHash link0).toNat
    let heading := link.drop (goIndexHash link + 1).toNat
    let heading := replaceSpaces heading
    let heading := heading.map toLowerA
    refWithHeading link heading
  else refNoHeading link0

/-- `convertWikiLinks` (unnamed-file variant) on a whole document. -/
def convertWikiLinksS (s : String) : String := ⟨scanLinks wikiLinkReplace s.data⟩

/-- `convertContent` (`main.go` variant) on a whole document. -/
def convertContentS (s : String) : String := ⟨scanLinks contentReplace s.data⟩

/-! ## Front matter

The `FrontMatter` struct of all variants. -/

structure FrontMatter where
  title : String
  date : String
  draft : Bool
  tags : List String
  categories : List String
  slug : String
deriving DecidableEq, Repr

/-- The zero value a fresh `var frontMatter FrontMatter` starts from. -/
def emptyFM : FrontMatter :=
  { title := "", date := "", draft := false, tags := [], categories := [], slug := "" }

/-! ### Line splitting -/

/-- Split a character list at every newline (the newline separators are
consumed; a trailing newline yields a final empty line, so joining is the
exact inverse). -/
def splitNl : List Char → List (List Char)
  | [] => [[]]
  | c :: rest =>
    if c = '\n' then [] :: splitNl rest
    else
      match splitNl rest with
      | l :: ls => (c :: l) :: ls
      | [] => [[c]]

/-- Join lines with newlines: the inverse of `splitNl`. -/
def joinNl : List (List Char) → List Char
  | [] => []
  | [l] => l
  | l :: ls => l ++ '\n' :: joinNl ls

/-! ### The metadata-block codec

Modelled from the spec: the repository calls `frontmatter.Parse`
(github.com/adrg/frontmatter) and `yaml.Marshal` (gopkg.in/yaml.v2), whose
sources are not part of the repository.  Per the spec the format is "a
block bounded by a fixed marker line (`---`), containing key/value pairs"
for the six `FrontMatter` fields; absence of the leading marker yields an
all-default front matter with the full content as body, and a leading
marker with no closing marker line is a parse error. -/

/-- Split one line at its first `:` (the key/value separator); `none` when
the line has no colon. -/
def splitColon : List Char → Option (List Char × List Char)
  | [] => none
  | c :: rest =>
    if c = ':' then some ([], rest)
    else
      match splitColon rest with
      | some (k, v) => some (c :: k, v)
      | none => none

/-- Drop the single space that the serializer writes after the colon. -/
def dropOneSpace : List Char → List Char
  | [] => []
  | c :: rest => if c = ' ' then rest else c :: rest

/-- The value of the first field line with the given key, if any. -/
def lookupField (key : List Char) : List (List Char) → Option (List Char)
  | [] => none
  | l :: rest =>
    match splitColon l with
    | some (k, v) => if k = key then some (dropOneSpace v) else lookupField key rest
    | none => lookupField key rest

/-- Modelled from the spec: decode a sequence-of-strings value.  `[]`
denotes the empty sequence; a non-empty value is kept as a single
element (the claims never look at tag/category contents). -/
def parseStrList (v : List Char) : List String :=
  if v = "[]".data then [] else [⟨v⟩]

/-- Comma-separate the encoded elements of a sequence value. -/
def renderItems : List String → List Char
  | [] => []
  | [x] => x.data
  | x :: xs => x.data ++ ", ".data ++ renderItems xs

/-- Modelled from the spec: encode a sequence of strings as a flow list. -/
def renderStrList : List String → List Char
  | [] => "[]".data
  | xs => "[".data ++ renderItems xs ++ "]".data

/-- Build a `FrontMatter` from the field lines of a metadata block;
missing keys keep their zero value. -/
def mkFM (fields : List (List Char)) : FrontMatter :=
  { title := ⟨(lookupField "title".data fields).getD []⟩
    date := ⟨(lookupField "date".data fields).getD []⟩
    draft := (lookupField "draft".data fields).getD [] = "true".data
    tags := parseStrList ((lookupField "tags".data fields).getD "[]".data)
    categories := parseStrList ((lookupField "categories".data fields).getD "[]".data)
    slug := ⟨(lookupField "slug".data fields).getD []⟩ }

/-- Scan lines for the closing `---` marker: field lines before it, body
lines after it; `none` when there is no closing marker. -/
def extractBlock : List (List Char) → Option (List (List Char) × List (List Char))
  | [] => none
  | l :: rest =>
    if l = "---".data then some ([], rest)
    else
      match extractBlock rest with
      | some (fs, body) => some (l :: fs, body)
      | none => none

/-- `frontmatter.Parse` (modelled from the spec): returns the parsed
front matter and the remaining body, or `none` on a malformed block
(leading marker without a closing marker line). -/
def parseFM (contents : List Char) : Option (FrontMatter × List Char) :=
  match splitNl contents with
  | [] => some (emptyFM, contents)
  | first :: rest =>
    if first = "---".data then
      match extractBlock rest with
      | some (fields, bodyLines) => some (mkFM fields, joinNl bodyLines)
      | none => none
    else some (emptyFM, contents)

/-- The six field lines `yaml.Marshal` emits, in struct order. -/
def titleLine (fm : FrontMatter) : List Char := "title: ".data ++ fm.title.data

def dateLine (fm : FrontMatter) : List Char := "date: ".data ++ fm.date.data

def draftLine (fm : FrontMatter) : List Char :=
  "draft: ".data ++ (if fm.draft then "true".data else "false".data)

def tagsLine (fm : FrontMatter) : List Char := "tags: ".data ++ renderStrList fm.tags

def catsLine (fm : FrontMatter) : List Char :=
  "categories: ".data ++ renderStrList fm.categories

def slugLine (fm : FrontMatter) : List Char := "slug: ".data ++ fm.slug.data

/-- Re-serialization, as both variants assemble it:
`---\n<the six field lines>---\n<body>` (the marshalled block ends with a
newline; the body follows the closing marker's newline). -/
def marshalFM (fm : FrontMatter) (body : List Char) : List Char :=
  "---".data ++ '\n' ::
    (titleLine fm ++ '\n' ::
      (dateLine fm ++ '\n' ::
        (draftLine fm ++ '\n' ::
          (tagsLine fm ++ '\n' ::
            (catsLine fm ++ '\n' ::
              (slugLine fm ++ '\n' ::
                ("---".data ++ '\n' :: body)))))))

/-! ### The fallback chain -/

/-- The dates the environment can supply: a source-control timestamp
(`attemptGitDate`, best-effort), the file's modification time
(`attemptFileDate`, best-effort), and the current time, each already
rendered with `time.Format(time.RFC3339)`. -/
structure DateEnv where
  git : Option String
  stat : Option String
  now : String
deriving DecidableEq, Repr

/-- `addFallbackFrontMatterTitle`: fill the title from the file's derived
title when empty. -/
def fillTitle (fileTitle : String) (fm : FrontMatter) : FrontMatter :=
  if fm.title = "" then { fm with title := fileTitle } else fm

/-- `addFallbackFrontMatterSlug`: fill the slug from the (now-resolved)
title when empty. -/
def fillSlug (fm : FrontMatter) : FrontMatter :=
  if fm.slug = "" then { fm with slug := slugifyS fm.title } else fm

/-- `addFallbackFrontMatterDate`: try the source-control date, then the
file date, then the current time, re-checking emptiness after each
attempt, exactly as the source does. -/
def fillDate (env : DateEnv) (fm : FrontMatter) : FrontMatter :=
  let fm1 := if fm.date = "" then
      (match env.git with | some d => { fm with date := d } | none => fm)
    else fm
  let fm2 := if fm1.date = "" then
      (match env.stat with | some d => { fm1 with date := d } | none => fm1)
    else fm1
  if fm2.date = "" then { fm2 with date := env.now } else fm2

/-- The date value `fillDate` produces, as a function of the incoming
date value alone (`fillDate` only reads `fm.date` and the environment). -/
def dateChain (env : DateEnv) (d : String) : String :=
  let d1 := if d = "" then (match env.git with | some g => g | none => d) else d
  let d2 := if d1 = "" then (match env.stat with | some s => s | none => d1) else d1
  if d2 = "" then env.now else d2

/-- The front matter the normalizer embeds in its output (parse, then the
three fallback fills in registration order). -/
def normFields (fileTitle : String) (env : DateEnv) (contents : List Char) :
    Option FrontMatter :=
  (parseFM contents).map (fun p => fillDate env (fillSlug (fillTitle fileTitle p.1)))

/-- The Front-Matter Normalizer (`convertFrontMatter` in `main.go`, the
parse/fill/marshal steps of `convertFile` in the unnamed variant): parse,
fill title, slug and date, re-serialize.  `none` on a malformed metadata
block. -/
def normalizeFM (fileTitle : String) (env : DateEnv) (contents : String) :
    Option String :=
  match parseFM contents.data with
  | none => none
  | some (fm, body) =>
    some ⟨marshalFM (fillDate env (fillSlug (fillTitle fileTitle fm))) body⟩

/-- The (title, slug, date) triple of a document's metadata block. -/
def parsedTriple (s : String) : Option (String × String × String) :=
  (parseFM s.data).map (fun p => (p.1.title, p.1.slug, p.1.date))

/-- The fills of `convertObsidianYamlToHugoYaml` (second `main.go`
variant): the title fallback removes `#` from the file name, the slug
fallback replaces spaces in the file name by `-`, and there is *no* date
fallback — the date field is never touched. -/
def fillYamlB (fileName : String) (fm : FrontMatter) : FrontMatter :=
  let fm1 := if fm.title = "" then { fm with title := ⟨removeHash fileName.data⟩ }
    else fm
  if fm1.slug = "" then { fm1 with slug := ⟨replaceSpaces fileName.data⟩ } else fm1

/-- The front matter `convertObsidianYamlToHugoYaml` embeds in its output
(that variant discards the parse error with `rest, _ :=`; the model keeps
the successful-parse path, which is all the claims need). -/
def normFieldsB (fileName : String) (contents : List Char) : Option FrontMatter :=
  (parseFM contents).map (fun p => fillYamlB fileName p.1)

/-! ## The tree walker (`convertAllRecursively`, unnamed variant)

The filesystem is abstracted to a tree whose leaves carry the result of
`os.ReadFile`.  Write failures and directory-creation details are not
modelled; the claims under scrutiny concern read failures, hidden-entry
skipping, and success reporting. -/

/-- Decidable equality of `Except` results, for evaluating the walker on
concrete trees. -/
instance exceptDecEq {ε α : Type} [DecidableEq ε] [DecidableEq α] :
    DecidableEq (Except ε α)
  | .error e, .error f =>
    if h : e = f then .isTrue (by rw [h]) else .isFalse (by simp [h])
  | .error _, .ok _ => .isFalse (by simp)
  | .ok _, .error _ => .isFalse (by simp)
  | .ok x, .ok y =>
    if h : x = y then .isTrue (by rw [h]) else .isFalse (by simp [h])

/-- One source-tree entry: a file (with its read outcome) or a directory. -/
inductive FsEntry where
  | file (name : String) (readResult : Except String String)
  | dir (name : String) (children : List FsEntry)
deriving Repr

/-- The walker's hidden-entry test `name[0] == '.'` (names returned by
`os.ReadDir` are never empty; on the empty name, where Go would panic,
this returns `false`). -/
def isHiddenName (n : String) : Bool :=
  match n.data with
  | c :: _ => c = '.'
  | [] => false

/-- `convertFile` of the unnamed variant: read, derive the fallback title
from the base name, parse the front matter, run the content processors
(the wiki-link rewriter) on the body, run the front-matter fills,
re-serialize.  Every file is processed this way — the function never
looks at the file's extension. -/
def convertFileP (env : DateEnv) (name : String) (readResult : Except String String) :
    Except String String :=
  match readResult with
  | .error e => .error e
  | .ok contents =>
    match parseFM contents.data with
    | none => .error "front matter"
    | some (fm, body) =>
      let body := scanLinks wikiLinkReplace body
      .ok ⟨marshalFM (fillDate env (fillSlug (fillTitle (fileTitleOf name) fm))) body⟩

/-- `convertAllRecursively`, written with explicit fuel so that the
recursion is structural (the fuel bounds the number of entries the walk
can visit and never runs out when it starts at `sizeOf` the tree): skip
hidden entries, recurse synchronously into directories (directory errors
propagate), dispatch each file to `convertFile` with `go` — whose
returned error is discarded, so a failed file simply produces no
destination entry while the walk still reports `ok`.  The result lists
the destination files as (path components, written bytes). -/
def walkGo (env : DateEnv) : Nat → List FsEntry → Except String (List (List String × String))
  | 0, _ => .error "fuel"
  | _ + 1, [] => .ok []
  | fuel + 1, .file name r :: rest =>
    if isHiddenName name then walkGo env fuel rest
    else
      let w := match convertFileP env name r with
        | .ok out => [([name], out)]
        | .error _ => []
      match walkGo env fuel rest with
      | .ok ws => .ok (w ++ ws)
      | .error e => .error e
  | fuel + 1, .dir name children :: rest =>
    if isHiddenName name then walkGo env fuel rest
    else
      match walkGo env fuel children with
      | .error e => .error e
      | .ok ws =>
        match walkGo env fuel rest with
        | .ok ws2 => .ok (ws.map (fun p => (name :: p.1, p.2)) ++ ws2)
        | .error e => .error e

/-- The destination paths a walk produces (empty on a directory-level
error or on fuel exhaustion). -/
def outputPaths (env : DateEnv) (fuel : Nat) (entries : List FsEntry) :
    List (List String) :=
  match walkGo env fuel entries with
  | .ok ws => ws.map (fun p => p.1)
  | .error _ => []

/-- `true` when no destination path contains a hidden component. -/
def noHiddenOutput (env : DateEnv) (fuel : Nat) (entries : List FsEntry) : Bool :=
  (outputPaths env fuel entries).all (fun p => p.all (fun comp => !isHiddenName comp))

/-! ## Dispatch/join semantics (`go convertFile`, `wg.Wait`, `os.Exit`)

A per-file conversion is a unit of concurrent work.  The driver is
abstracted to the list of its relevant actions, and `GoRun` is the
interleaving semantics: between any two program actions the scheduler may
complete pending units; `os.Exit(0)` terminates the process at once,
abandoning whatever is still pending. -/

/-- Driver actions: dispatch a unit (`go convertFile`), join
(`wg.Wait()`), report success (`os.Exit(0)`). -/
inductive GoEv where
  | spawn (t : String)
  | wait
  | exitOk
deriving DecidableEq, Repr

/-- The `main.go` variant: `convertAllRecursively` dispatches one unit per
file and returns; `main` exits successfully immediately — there is no
`WaitGroup` anywhere in that variant. -/
def progNoJoin (files : List String) : List GoEv :=
  files.map GoEv.spawn ++ [GoEv.exitOk]

/-- The unnamed variant: same dispatches, then `wg.Wait()` in `main`
before `os.Exit(0)`. -/
def progJoin (files : List String) : List GoEv :=
  files.map GoEv.spawn ++ [GoEv.wait, GoEv.exitOk]

/-- `GoRun pending prog leftover`: starting with `pending` dispatched but
uncompleted units, executing the remaining driver actions `prog` can end
the process with `leftover` units never completed. -/
inductive GoRun : List String → List GoEv → List String → Prop where
  | exit (pending : List String) (rest : List GoEv) :
      GoRun pending (GoEv.exitOk :: rest) pending
  | spawn (pending : List String) (t : String) (prog : List GoEv)
      (left : List String) :
      GoRun (pending ++ [t]) prog left → GoRun pending (GoEv.spawn t :: prog) left
  | wait (prog : List GoEv) (left : List String) :
      GoRun [] prog left → GoRun [] (GoEv.wait :: prog) left
  | sched (pending : List String) (t : String) (prog : List GoEv)
      (left : List String) :
      t ∈ pending → GoRun (pending.erase t) prog left → GoRun pending prog left

/-! # Theorems -/

/-! ## Helper lemmas -/

theorem findClose_length : ∀ (l a b : List Char),
    findClose l = some (a, b) → b.length + 2 ≤ l.length := by
  intro l
  induction l with
  | nil => intro a b h; simp [findClose] at h
  | cons c rest ih =>
    intro a b h
    cases rest with
    | nil => simp [findClose] at h
    | cons d rest' =>
      simp only [findClose] at h
      by_cases hc : c = '\n'
      · simp [hc] at h
      · rw [if_neg hc] at h
        by_cases hcd : (c = ']' && d = ']') = true
        · rw [if_pos hcd] at h
          simp only [Option.some.injEq, Prod.mk.injEq] at h
          obtain ⟨rfl, rfl⟩ := h
          simp
        · rw [if_neg hcd] at h
          cases hfc : findClose (d :: rest') with
          | none => rw [hfc] at h; simp at h
          | some p =>
            rw [hfc] at h
            obtain ⟨a', b'⟩ := p
            simp only [Option.some.injEq, Prod.mk.injEq] at h
            obtain ⟨rfl, rfl⟩ := h
            have := ih a' b' hfc
            simp only [List.length_cons] at this ⊢
            omega

/-! ## C1: wiki-links with a heading -/

/-- C1: for `[[Page#Some Heading]]` the spec (and `convertWikiLinks` in
the unnamed variant) produce the anchor `some-heading`, but
`convertContent` in `main.go` truncates the link before extracting the
heading, so its anchor is the lowercased page name `page` — the claim
fails on that cited implementation. -/
theorem c1_heading_anchor :
    convertContentS "See [[Page#Some Heading]]" =
      "See [Page](\x7b\x7b< ref \"Page#page\" >\x7d\x7d)" ∧
    convertWikiLinksS "See [[Page#Some Heading]]" =
      "See [Page](\x7b\x7b< ref \"Page#some-heading\" >\x7d\x7d)" ∧
    convertContentS "See [[Page#Some Heading]]" ≠
      convertWikiLinksS "See [[Page#Some Heading]]" := by
  refine ⟨by decide, by decide, by decide⟩

/-! ## C6: the slug fallback -/

/-- C6 counterexample: the claim's example says the slug for title
`My Title!` is `my-title`, but the code replaces the trailing `!` with `-`
as well, yielding `my-title-`. -/
theorem c6_counterexample :
    (fillSlug (FrontMatter.mk "My Title!" "" false [] [] "")).slug = "my-title-" ∧
    ("my-title-" : String) ≠ "my-title" := by
  refine ⟨by decide, by decide⟩

theorem toLowerA_if_alnum (c : Char) :
    toLowerA (if isAlnum c then c else '-') =
      if isAlnum c then toLowerA c else '-' := by
  by_cases hc : isAlnum c = true
  · rw [if_pos hc, if_pos hc]
  · rw [if_neg hc, if_neg hc]; decide

/-- C6 (amended): when the slug is empty the fallback replaces every
character outside `[A-Za-z0-9]` of the title by `-` and lowercases the
result; in particular `My Title!` yields `my-title-` (not `my-title`). -/
theorem c6_slug_fallback :
    (∀ fm : FrontMatter, fm.slug = "" →
      (fillSlug fm).slug.data =
        fm.title.data.map (fun c => if isAlnum c then toLowerA c else '-')) ∧
    slugifyS "My Title!" = "my-title-" := by
  constructor
  · intro fm h
    simp only [fillSlug, h, if_pos]
    show slugifyL fm.title.data = _
    simp only [slugifyL, slugifyReplace, List.map_map]
    exact List.map_congr_left (fun c _ => toLowerA_if_alnum c)
  · decide

theorem c6_slug_fallback_witness :
    (fillSlug (FrontMatter.mk "My Title!" "" false [] [] "")).slug.data =
      "My Title!".data.map (fun c => if isAlnum c then toLowerA c else '-') :=
  c6_slug_fallback.1 _ rfl

/-! ## C10: `.md` removal in the fallback title -/

/-- Unfolding step of `removeMd` when the head is not an occurrence. -/
theorem removeMd_step (c d e : Char) (rest : List Char)
    (h : (c = '.' && d = 'm' && e = 'd') = false) :
    removeMd (c :: d :: e :: rest) = c :: removeMd (d :: e :: rest) := by
  simp only [removeMd]
  rw [h]
  simp

theorem removeMd_append_md : ∀ (l : List Char), hasMd l = false →
    removeMd (l ++ ['.', 'm', 'd']) = l
  | [], _ => by decide
  | [c], _ => by
    show removeMd (c :: '.' :: 'm' :: 'd' :: []) = [c]
    rw [removeMd_step c '.' 'm' ['d']
      (by rw [show decide (('m' : Char) = 'd') = false from rfl, Bool.and_false])]
    rfl
  | [c, d], _ => by
    show removeMd (c :: d :: '.' :: 'm' :: 'd' :: []) = [c, d]
    rw [removeMd_step c d '.' ['m', 'd']
      (by rw [show decide (('.' : Char) = 'd') = false from rfl, Bool.and_false])]
    rw [removeMd_step d '.' 'm' ['d']
      (by rw [show decide (('m' : Char) = 'd') = false from rfl, Bool.and_false])]
    rfl
  | c :: d :: e :: rest, h => by
    have hsplit : (c = '.' && d = 'm' && e = 'd') = false ∧
        hasMd (d :: e :: rest) = false := by
      have hh := h
      rw [hasMd] at hh
      exact ⟨(Bool.or_eq_false_iff.mp hh).1, (Bool.or_eq_false_iff.mp hh).2⟩
    show removeMd (c :: d :: e :: (rest ++ ['.', 'm', 'd'])) = c :: d :: e :: rest
    rw [removeMd_step c d e (rest ++ ['.', 'm', 'd']) hsplit.1]
    have := removeMd_append_md (d :: e :: rest) hsplit.2
    simpa using this

/-- C10: the fallback title removes every occurrence of `.md` in the base
name (so `a.mdb.md` yields `ab`, not the extension-stripped `a.mdb`);
when `.md` occurs only as the final extension this coincides with
stripping that extension. -/
theorem c10_md_removal :
    fileTitleOf "a.mdb.md" = "ab" ∧
    fileTitleOf "a.mdb.md" ≠ "a.mdb" ∧
    (∀ s : String, hasMd s.data = false → removeMdS (s ++ ".md") = s) := by
  refine ⟨by decide, by decide, ?_⟩
  intro s h
  show (⟨removeMd (s ++ ".md").data⟩ : String) = s
  have hdata : (s ++ ".md").data = s.data ++ ['.', 'm', 'd'] := by
    simp [String.data_append]
  rw [hdata, removeMd_append_md s.data h]

theorem c10_md_removal_witness : removeMdS ("hello" ++ ".md") = "hello" :=
  c10_md_removal.2.2 "hello" (by decide)

/-! ## C4: per-file errors vanish -/

/-- C4: a file whose read fails produces no error at the conversion's
caller: the walk of a tree holding a failing `bad.md` and a healthy
`ok.md` reports `ok` and lists only `ok.md` — the unnamed variant's
`go convertFile(...)` discards the returned error (and `convertFile` in
`main.go` returns nothing at all). -/
theorem c4_read_error_vanishes :
    walkGo { git := none, stat := none, now := "2024-01-01T00:00:00Z" } 5
        [.file "bad.md" (.error "read failure"), .file "ok.md" (.ok "hi")] =
      .ok [(["ok.md"],
        "---\ntitle: ok\ndate: 2024-01-01T00:00:00Z\ndraft: false\ntags: []\ncategories: []\nslug: ok\n---\nhi")] := by
  decide

/-! ## C5: join before reporting success -/

theorem goRun_exit_nil (left : List String) :
    GoRun [] [GoEv.exitOk] left → left = [] := by
  intro h
  cases h with
  | exit => rfl
  | sched _ t _ _ hmem _ => exact absurd hmem (List.not_mem_nil t)

theorem goRun_join_aux (pending : List String) (prog : List GoEv)
    (left : List String) (h : GoRun pending prog left) :
    ∀ fs : List String, prog = fs.map GoEv.spawn ++ [GoEv.wait, GoEv.exitOk] →
      left = [] := by
  induction h with
  | exit pending rest =>
    intro fs hfs
    cases fs <;> simp at hfs
  | spawn pending t prog left _ ih =>
    intro fs hfs
    cases fs with
    | nil => simp at hfs
    | cons f fs' =>
      simp only [List.map_cons, List.cons_append, List.cons.injEq] at hfs
      exact ih fs' hfs.2
  | wait prog left hsub _ =>
    intro fs hfs
    cases fs with
    | nil =>
      simp only [List.map_nil, List.nil_append, List.cons.injEq] at hfs
      rw [hfs.2] at hsub
      exact goRun_exit_nil left hsub
    | cons f fs' => simp at hfs
  | sched pending t prog left hmem _ ih =>
    intro fs hfs
    exact ih fs hfs

/-- C5: in the `main.go` variant there is no join: the process can report
success (`os.Exit(0)`) with the dispatched conversion of `note.md` never
executed, refuting the claim on that variant; with the `wg.Wait()` of the
unnamed variant's `main`, every run that reports success has completed
every dispatched unit. -/
theorem c5_join_before_success :
    (GoRun [] (progNoJoin ["note.md"]) ["note.md"] ∧
      (["note.md"] : List String) ≠ []) ∧
    (∀ (files : List String) (left : List String),
      GoRun [] (progJoin files) left → left = []) := by
  refine ⟨⟨?_, by decide⟩, ?_⟩
  · show GoRun [] (GoEv.spawn "note.md" :: [GoEv.exitOk]) ["note.md"]
    exact GoRun.spawn [] "note.md" [GoEv.exitOk] ["note.md"]
      (GoRun.exit ["note.md"] [])
  · intro files left h
    exact goRun_join_aux [] (progJoin files) left h files rfl

theorem c5_join_before_success_witness : ([] : List String) = [] :=
  c5_join_before_success.2 ["a.md"] []
    (GoRun.spawn [] "a.md" [GoEv.wait, GoEv.exitOk] []
      (GoRun.sched ["a.md"] "a.md" [GoEv.wait, GoEv.exitOk] []
        (List.mem_singleton.mpr rfl)
        (by
          show GoRun (["a.md"].erase "a.md") [GoEv.wait, GoEv.exitOk] []
          have : (["a.md"].erase "a.md") = ([] : List String) := by decide
          rw [this]
          exact GoRun.wait [GoEv.exitOk] [] (GoRun.exit [] []))))

/-! ## C9: hidden entries are skipped -/

theorem walk_no_hidden (env : DateEnv) : ∀ (fuel : Nat) (entries : List FsEntry)
    (ws : List (List String × String)), walkGo env fuel entries = .ok ws →
    ∀ p ∈ ws, ∀ comp ∈ p.1, isHiddenName comp = false := by
  intro fuel
  induction fuel with
  | zero => intro entries ws h; simp [walkGo] at h
  | succ fuel ih =>
    intro entries ws h
    cases entries with
    | nil =>
      simp only [walkGo, Except.ok.injEq] at h
      subst h
      intro p hp
      exact absurd hp (List.not_mem_nil p)
    | cons e rest =>
      cases e with
      | file name r =>
        simp only [walkGo] at h
        by_cases hn : isHiddenName name = true
        · rw [if_pos hn] at h
          exact ih rest ws h
        · rw [if_neg hn] at h
          cases hrest : walkGo env fuel rest with
          | error e => rw [hrest] at h; simp at h
          | ok ws' =>
            rw [hrest] at h
            simp only [Except.ok.injEq] at h
            subst h
            intro p hp comp hcomp
            rcases List.mem_append.mp hp with hw | hws'
            · cases hcf : convertFileP env name r with
              | ok out =>
                rw [hcf] at hw
                simp only [List.mem_singleton] at hw
                subst hw
                simp only [List.mem_singleton] at hcomp
                subst hcomp
                exact Bool.eq_false_iff.mpr hn
              | error e =>
                rw [hcf] at hw
                exact absurd hw (List.not_mem_nil p)
            · exact ih rest ws' hrest p hws' comp hcomp
      | dir name children =>
        simp only [walkGo] at h
        by_cases hn : isHiddenName name = true
        · rw [if_pos hn] at h
          exact ih rest ws h
        · rw [if_neg hn] at h
          cases hch : walkGo env fuel children with
          | error e => rw [hch] at h; simp at h
          | ok wsc =>
            rw [hch] at h
            cases hrest : walkGo env fuel rest with
            | error e => rw [hrest] at h; simp at h
            | ok ws' =>
              rw [hrest] at h
              simp only [Except.ok.injEq] at h
              subst h
              intro p hp comp hcomp
              rcases List.mem_append.mp hp with hm | hws'
              · obtain ⟨q, hq, rfl⟩ := List.mem_map.mp hm
                simp only [List.mem_cons] at hcomp
                rcases hcomp with rfl | hcomp
                · exact Bool.eq_false_iff.mpr hn
                · exact ih children wsc hch q hq comp hcomp
              · exact ih rest ws' hrest p hws' comp hcomp

/-- C9: no destination path produced by the walk contains a hidden
component — every entry whose name starts with `.` is skipped together
with everything beneath it. -/
theorem c9_hidden_skipped (env : DateEnv) (fuel : Nat) (entries : List FsEntry) :
    noHiddenOutput env fuel entries = true := by
  unfold noHiddenOutput outputPaths
  cases hw : walkGo env fuel entries with
  | error e => simp
  | ok ws =>
    simp only [List.all_eq_true]
    intro p hp
    obtain ⟨q, hq, rfl⟩ := List.mem_map.mp hp
    intro comp hcomp
    have := walk_no_hidden env fuel entries ws hw q hq comp hcomp
    simp [this]

theorem c9_hidden_skipped_witness :
    noHiddenOutput (DateEnv.mk none none "2024-01-01T00:00:00Z") 6
      [FsEntry.dir ".git" [FsEntry.file "cfg" (Except.ok "x")],
        FsEntry.dir ".obsidian" [],
        FsEntry.dir "notes" [FsEntry.file "a.md" (Except.ok "hello")]] = true :=
  c9_hidden_skipped _ _ _

/-! ## C3: non-empty title, slug, date after normalization -/

theorem fillTitle_title (ft : String) (fm : FrontMatter) :
    (fillTitle ft fm).title = if fm.title = "" then ft else fm.title := by
  by_cases h : fm.title = "" <;> simp [fillTitle, h]

theorem fillTitle_slug (ft : String) (fm : FrontMatter) :
    (fillTitle ft fm).slug = fm.slug := by
  by_cases h : fm.title = "" <;> simp [fillTitle, h]

theorem fillTitle_date (ft : String) (fm : FrontMatter) :
    (fillTitle ft fm).date = fm.date := by
  by_cases h : fm.title = "" <;> simp [fillTitle, h]

theorem fillSlug_title (fm : FrontMatter) : (fillSlug fm).title = fm.title := by
  by_cases h : fm.slug = "" <;> simp [fillSlug, h]

theorem fillSlug_date (fm : FrontMatter) : (fillSlug fm).date = fm.date := by
  by_cases h : fm.slug = "" <;> simp [fillSlug, h]

theorem fillSlug_slug (fm : FrontMatter) :
    (fillSlug fm).slug = if fm.slug = "" then slugifyS fm.title else fm.slug := by
  by_cases h : fm.slug = "" <;> simp [fillSlug, h]

theorem fillDate_title (env : DateEnv) (fm : FrontMatter) :
    (fillDate env fm).title = fm.title := by
  obtain ⟨g, st, now⟩ := env
  simp only [fillDate]
  cases g <;> cases st <;> split_ifs <;> simp_all

theorem fillDate_slug (env : DateEnv) (fm : FrontMatter) :
    (fillDate env fm).slug = fm.slug := by
  obtain ⟨g, st, now⟩ := env
  simp only [fillDate]
  cases g <;> cases st <;> split_ifs <;> simp_all

theorem fillDate_date (env : DateEnv) (fm : FrontMatter) :
    (fillDate env fm).date = dateChain env fm.date := by
  obtain ⟨g, st, now⟩ := env
  simp only [fillDate, dateChain]
  cases g <;> cases st <;> split_ifs <;> simp_all

theorem dateChain_ne (env : DateEnv) (d : String) (hnow : env.now ≠ "") :
    dateChain env d ≠ "" := by
  obtain ⟨g, st, now⟩ := env
  simp only [dateChain]
  cases g <;> cases st <;> split_ifs <;> simp_all

theorem slugifyS_ne_empty (s : String) (h : s ≠ "") : slugifyS s ≠ "" := by
  intro hc
  apply h
  obtain ⟨d⟩ := s
  have hdata : slugifyL d = [] := congrArg String.data hc
  simp only [slugifyL, slugifyReplace, List.map_map, List.map_eq_nil_iff] at hdata
  subst hdata
  rfl

/-- C3 counterexample, both failure modes of the claimed invariant: a
file named `#.md` (its derived fallback title is empty) with no metadata
block normalizes to an *empty* title and slug in the variants with a date
fallback; and in `convertObsidianYamlToHugoYaml` (which has no date
fallback at all) the date of a file without one stays empty. -/
theorem c3_counterexample :
    (normFields (fileTitleOf "#.md") (DateEnv.mk none none "2024-01-01T00:00:00Z")
      "hello".data).map (fun fm => (fm.title, fm.slug)) = some ("", "") ∧
    (normFieldsB "note" "hello".data).map (fun fm => fm.date) = some "" := by
  refine ⟨by decide, by decide⟩

/-- C3 (amended): in the normalizers that have a date fallback
(`convertFrontMatter` in `main.go` and the `addFallbackFrontMatter*`
chain of the unnamed variant) the date is always non-empty after
normalization — the final fallback is the rendered current time, which
is never the empty string; the title and slug are non-empty provided the
parsed title or the file-derived fallback title is non-empty.  (The
`convertObsidianYamlToHugoYaml` variant has no date fallback, so there
the date can stay empty — see the counterexample.) -/
theorem c3_nonempty (ft : String) (env : DateEnv) (c : List Char)
    (fm0 : FrontMatter) (body : List Char)
    (hparse : parseFM c = some (fm0, body)) (hnow : env.now ≠ "") :
    ∃ fm, normFields ft env c = some fm ∧ fm.date ≠ "" ∧
      (fm0.title ≠ "" ∨ ft ≠ "" → fm.title ≠ "" ∧ fm.slug ≠ "") := by
  refine ⟨fillDate env (fillSlug (fillTitle ft fm0)), ?_, ?_, ?_⟩
  · simp [normFields, hparse]
  · rw [fillDate_date]
    exact dateChain_ne env _ hnow
  · intro htitle
    have htne : (fillTitle ft fm0).title ≠ "" := by
      rw [fillTitle_title]
      by_cases h0 : fm0.title = ""
      · rw [if_pos h0]
        rcases htitle with ht | ht
        · exact absurd h0 ht
        · exact ht
      · rw [if_neg h0]
        exact h0
    constructor
    · rw [fillDate_title, fillSlug_title]
      exact htne
    · rw [fillDate_slug, fillSlug_slug, fillTitle_slug]
      by_cases hs : fm0.slug = ""
      · rw [if_pos hs]
        exact slugifyS_ne_empty _ htne
      · rw [if_neg hs]
        exact hs

theorem c3_nonempty_witness :
    ∃ fm, normFields "note" (DateEnv.mk none none "2024-01-01T00:00:00Z")
        "hello".data = some fm ∧ fm.date ≠ "" ∧
      (emptyFM.title ≠ "" ∨ ("note" : String) ≠ "" →
        fm.title ≠ "" ∧ fm.slug ≠ "") :=
  c3_nonempty "note" (DateEnv.mk none none "2024-01-01T00:00:00Z") "hello".data
    emptyFM "hello".data (by decide) (by decide)

/-! ## C8: heading-free wiki-links -/

theorem scanGo_nil (repl : List Char → List Char) (f : Nat) :
    scanGo repl f [] = [] := by
  cases f <;> rfl

theorem findClose_boundary : ∀ (page post : List Char),
    (∀ c ∈ page, c ≠ ']' ∧ c ≠ '\n') →
    findClose (page ++ ']' :: ']' :: post) = some (page, post) := by
  intro page
  induction page with
  | nil => intro post _; rfl
  | cons a page' ih =>
    intro post h
    have ha := h a (List.mem_cons_self a page')
    have h' : ∀ c ∈ page', c ≠ ']' ∧ c ≠ '\n' :=
      fun c hc => h c (List.mem_cons_of_mem a hc)
    show findClose (a :: (page' ++ ']' :: ']' :: post)) = some (a :: page', post)
    cases hX : page' ++ ']' :: ']' :: post with
    | nil => simp at hX
    | cons d rest =>
      show findClose (a :: d :: rest) = some (a :: page', post)
      simp only [findClose]
      rw [if_neg (by simp [ha.2]), if_neg (by simp [ha.1]), ← hX, ih post h']

/-- Definitional unfolding of `scanGo` on a two-element head. -/
theorem scanGo_cons_cons (repl : List Char → List Char) (f : Nat) (c d : Char)
    (rest : List Char) :
    scanGo repl (f + 1) (c :: d :: rest) =
      if c = '[' && d = '[' then
        match findClose rest with
        | some (content, rest2) => repl content ++ scanGo repl f rest2
        | none => c :: scanGo repl f (d :: rest)
      else c :: scanGo repl f (d :: rest) := rfl

theorem scanGo_prefix (repl : List Char → List Char) :
    ∀ (pre : List Char), (∀ c ∈ pre, c ≠ '[') →
    ∀ (f : Nat) (l : List Char),
    scanGo repl (pre.length + f) (pre ++ l) = pre ++ scanGo repl f l := by
  intro pre
  induction pre with
  | nil => intro _ f l; simp
  | cons a pre' ih =>
    intro h f l
    have ha : a ≠ '[' := h a (List.mem_cons_self a pre')
    have h' : ∀ c ∈ pre', c ≠ '[' := fun c hc => h c (List.mem_cons_of_mem a hc)
    have hlen : (a :: pre').length + f = (pre'.length + f) + 1 := by
      simp [Nat.succ_add]
    rw [hlen]
    show scanGo repl ((pre'.length + f) + 1) (a :: (pre' ++ l)) =
      a :: (pre' ++ scanGo repl f l)
    cases hX : pre' ++ l with
    | nil =>
      obtain ⟨rfl, rfl⟩ := List.append_eq_nil.mp hX
      simp [scanGo, scanGo_nil]
    | cons d rest =>
      rw [scanGo_cons_cons]
      rw [if_neg (by simp [ha])]
      rw [← hX, ih h' f l]

theorem scanGo_match (repl : List Char → List Char) (page post : List Char)
    (f : Nat) (hpage : ∀ c ∈ page, c ≠ ']' ∧ c ≠ '\n') :
    scanGo repl (f + 1) ('[' :: '[' :: (page ++ ']' :: ']' :: post)) =
      repl page ++ scanGo repl f post := by
  simp only [scanGo]
  rw [if_pos (by decide), findClose_boundary page post hpage]

theorem scanGo_fuel (repl : List Char → List Char) :
    ∀ (f : Nat) (l : List Char), l.length ≤ f →
    scanGo repl f l = scanGo repl l.length l := by
  intro f
  induction f using Nat.strong_induction_on with
  | _ f ih =>
    intro l hl
    cases f with
    | zero =>
      have : l = [] := List.length_eq_zero.mp (Nat.le_zero.mp hl)
      subst this
      rfl
    | succ f' =>
      cases l with
      | nil => rfl
      | cons c l' =>
        cases l' with
        | nil => rfl
        | cons d rest =>
          have hlen1 : (c :: d :: rest).length = (rest.length + 1) + 1 := by
            simp
          rw [hlen1, scanGo_cons_cons repl f', scanGo_cons_cons repl (rest.length + 1)]
          have hdl : (d :: rest).length ≤ f' := by
            simp only [List.length_cons] at hl ⊢
            omega
          have hA : scanGo repl f' (d :: rest) =
              scanGo repl (rest.length + 1) (d :: rest) := by
            rw [ih f' (Nat.lt_succ_self f') (d :: rest) hdl]
            simp
          by_cases hc : (c = '[' && d = '[') = true
          · rw [if_pos hc, if_pos hc]
            cases hfc : findClose rest with
            | none => simp only [hA]
            | some p =>
              obtain ⟨content, rest2⟩ := p
              have hr2 := findClose_length rest content rest2 hfc
              have h1 : scanGo repl f' rest2 = scanGo repl rest2.length rest2 := by
                apply ih f' (Nat.lt_succ_self f')
                simp only [List.length_cons] at hl
                omega
              have h2 : scanGo repl (rest.length + 1) rest2 =
                  scanGo repl rest2.length rest2 := by
                apply ih (rest.length + 1)
                · simp only [List.length_cons] at hl
                  omega
                · omega
              simp only [h1, h2]
          · rw [if_neg hc, if_neg hc, hA]

/-- C8: a heading-free wiki-link `[[page]]` (preceded by link-free text
and with the page free of `]`, newline and `#`) is replaced by a
cross-reference whose display text and target are both the raw page
string; the rest of the document is rewritten independently (so several
links on a line are each rewritten), and the match closes at the first
`]]`. -/
theorem c8_plain_links (pre page post : String)
    (hpre : ∀ c ∈ pre.data, c ≠ '[')
    (hpage : ∀ c ∈ page.data, c ≠ ']' ∧ c ≠ '\n')
    (hnohash : page.data.contains '#' = false) :
    convertWikiLinksS (pre ++ "[[" ++ page ++ "]]" ++ post) =
      pre ++ "[" ++ page ++ "](\x7b\x7b< ref \"" ++ page ++ "\" >\x7d\x7d)" ++
        convertWikiLinksS post := by
  apply String.ext
  show scanLinks wikiLinkReplace (pre ++ "[[" ++ page ++ "]]" ++ post).data = _
  have hdata : (pre ++ "[[" ++ page ++ "]]" ++ post).data =
      pre.data ++ ('[' :: '[' :: (page.data ++ ']' :: ']' :: post.data)) := by
    show pre.data ++ "[[".data ++ page.data ++ "]]".data ++ post.data = _
    simp
  rw [hdata]
  unfold scanLinks
  have hlen : (pre.data ++ ('[' :: '[' :: (page.data ++ ']' :: ']' :: post.data))).length =
      pre.data.length + (('[' :: '[' :: (page.data ++ ']' :: ']' :: post.data)).length) := by
    simp
  rw [hlen, scanGo_prefix wikiLinkReplace pre.data hpre]
  have hlen2 : ('[' :: '[' :: (page.data ++ ']' :: ']' :: post.data)).length =
      (page.data.length + post.data.length + 3) + 1 := by
    simp
    omega
  rw [hlen2, scanGo_match wikiLinkReplace page.data post.data _ hpage]
  rw [scanGo_fuel wikiLinkReplace (page.data.length + post.data.length + 3) post.data
    (by omega)]
  have hrepl : wikiLinkReplace page.data = refNoHeading page.data := by
    unfold wikiLinkReplace
    rw [if_neg (by rw [hnohash]; simp)]
  rw [hrepl]
  show _ = (pre ++ "[" ++ page ++ "](\x7b\x7b< ref \"" ++ page ++ "\" >\x7d\x7d)" ++
    convertWikiLinksS post).data
  show _ = pre.data ++ "[".data ++ page.data ++ "](\x7b\x7b< ref \"".data ++
    page.data ++ "\" >\x7d\x7d)".data ++ (convertWikiLinksS post).data
  unfold refNoHeading convertWikiLinksS scanLinks
  simp

theorem c8_plain_links_witness :
    convertWikiLinksS ("a " ++ "[[" ++ "Page" ++ "]]" ++ " b [[Q]]") =
      "a " ++ "[" ++ "Page" ++ "](\x7b\x7b< ref \"" ++ "Page" ++ "\" >\x7d\x7d)" ++
        convertWikiLinksS " b [[Q]]" :=
  c8_plain_links "a " "Page" " b [[Q]]" (by decide) (by decide) (by decide)

/-! ## C7: idempotence of the normalizer — codec lemmas -/

theorem splitNl_ne_nil (l : List Char) : splitNl l ≠ [] := by
  cases l with
  | nil => simp [splitNl]
  | cons c rest =>
    simp only [splitNl]
    by_cases hc : c = '\n'
    · rw [if_pos hc]; simp
    · rw [if_neg hc]
      cases h : splitNl rest <;> simp

theorem splitNl_no_nl : ∀ (l s : List Char), s ∈ splitNl l → '\n' ∉ s := by
  intro l
  induction l with
  | nil =>
    intro s hs
    simp only [splitNl, List.mem_singleton] at hs
    subst hs
    exact List.not_mem_nil _
  | cons c rest ih =>
    intro s hs
    simp only [splitNl] at hs
    by_cases hc : c = '\n'
    · rw [if_pos hc] at hs
      rcases List.mem_cons.mp hs with rfl | hmem
      · exact List.not_mem_nil _
      · exact ih s hmem
    · rw [if_neg hc] at hs
      cases h : splitNl rest with
      | nil =>
        rw [h] at hs
        simp only [List.mem_singleton] at hs
        subst hs
        intro hmem
        rcases List.mem_cons.mp hmem with heq | hend
        · exact hc heq.symm
        · exact List.not_mem_nil _ hend
      | cons l0 ls =>
        rw [h] at hs
        rcases List.mem_cons.mp hs with rfl | hmem
        · intro hmem
          rcases List.mem_cons.mp hmem with heq | hmem2
          · exact hc heq.symm
          · exact ih l0 (by rw [h]; exact List.mem_cons_self l0 ls) hmem2
        · exact ih s (by rw [h]; exact List.mem_cons_of_mem l0 hmem)

theorem joinNl_cons_cons (c : Char) (l0 : List Char) (ls : List (List Char)) :
    joinNl ((c :: l0) :: ls) = c :: joinNl (l0 :: ls) := by
  cases ls with
  | nil => rfl
  | cons y ys => simp [joinNl]

theorem joinNl_splitNl : ∀ (l : List Char), joinNl (splitNl l) = l := by
  intro l
  induction l with
  | nil => rfl
  | cons c rest ih =>
    simp only [splitNl]
    by_cases hc : c = '\n'
    · rw [if_pos hc]
      cases h : splitNl rest with
      | nil => exact absurd h (splitNl_ne_nil rest)
      | cons l0 ls =>
        rw [hc, ← ih, h]
        rfl
    · rw [if_neg hc]
      cases h : splitNl rest with
      | nil => exact absurd h (splitNl_ne_nil rest)
      | cons l0 ls =>
        rw [joinNl_cons_cons, ← h, ih]

theorem splitNl_append_nl : ∀ (a : List Char), '\n' ∉ a →
    ∀ (t : List Char), splitNl (a ++ '\n' :: t) = a :: splitNl t := by
  intro a
  induction a with
  | nil => intro _ t; simp [splitNl]
  | cons c a' ih =>
    intro h t
    obtain ⟨hne, hnotin⟩ : '\n' ≠ c ∧ '\n' ∉ a' := by
      simpa [List.mem_cons, not_or] using h
    show splitNl (c :: (a' ++ '\n' :: t)) = (c :: a') :: splitNl t
    simp only [splitNl]
    rw [if_neg (fun heq => hne heq.symm), ih hnotin t]

theorem no_nl_append (a b : List Char) (ha : '\n' ∉ a) (hb : '\n' ∉ b) :
    '\n' ∉ a ++ b := by
  intro h
  rcases List.mem_append.mp h with h | h
  exacts [ha h, hb h]

theorem cons_ne_marker {c : Char} (l : List Char) (hc : c ≠ '-') :
    c :: l ≠ "---".data := by
  intro h
  injection h with h1 _
  exact hc h1

theorem extractBlock_cons_ne (l : List Char) (rest : List (List Char))
    (h : l ≠ "---".data) :
    extractBlock (l :: rest) =
      match extractBlock rest with
      | some (fs, body) => some (l :: fs, body)
      | none => none := by
  simp only [extractBlock]
  rw [if_neg h]

theorem extractBlock_marker (rest : List (List Char)) :
    extractBlock ("---".data :: rest) = some ([], rest) := by
  simp [extractBlock]

theorem parseFM_cons (first : List Char) (rest : List (List Char))
    (contents : List Char) (h : splitNl contents = first :: rest) :
    parseFM contents =
      if first = "---".data then
        match extractBlock rest with
        | some (fields, bodyLines) => some (mkFM fields, joinNl bodyLines)
        | none => none
      else some (emptyFM, contents) := by
  unfold parseFM
  rw [h]

theorem mkFM_marshal (fm : FrontMatter) :
    mkFM [titleLine fm, dateLine fm, draftLine fm, tagsLine fm, catsLine fm,
        slugLine fm] =
      FrontMatter.mk fm.title fm.date fm.draft
        (parseStrList (renderStrList fm.tags))
        (parseStrList (renderStrList fm.categories)) fm.slug := by
  obtain ⟨t, d, dr, tg, ct, sl⟩ := fm
  simp [mkFM, lookupField, splitColon, dropOneSpace, titleLine, dateLine,
    draftLine, tagsLine, catsLine, slugLine]

/-- The marshalled output re-parses to the same title/date/draft/slug
(tags and categories are re-coded through the list syntax), with the body
recovered exactly. -/
theorem parseFM_marshal (fm : FrontMatter) (body : List Char)
    (ht : '\n' ∉ fm.title.data) (hd : '\n' ∉ fm.date.data)
    (hs : '\n' ∉ fm.slug.data)
    (htg : '\n' ∉ renderStrList fm.tags) (hct : '\n' ∉ renderStrList fm.categories) :
    parseFM (marshalFM fm body) =
      some (FrontMatter.mk fm.title fm.date fm.draft
        (parseStrList (renderStrList fm.tags))
        (parseStrList (renderStrList fm.categories)) fm.slug, body) := by
  have hL1 : '\n' ∉ titleLine fm := no_nl_append "title: ".data _ (by decide) ht
  have hL2 : '\n' ∉ dateLine fm := no_nl_append "date: ".data _ (by decide) hd
  have hL3 : '\n' ∉ draftLine fm := by
    unfold draftLine
    cases fm.draft <;> decide
  have hL4 : '\n' ∉ tagsLine fm := no_nl_append "tags: ".data _ (by decide) htg
  have hL5 : '\n' ∉ catsLine fm := no_nl_append "categories: ".data _ (by decide) hct
  have hL6 : '\n' ∉ slugLine fm := no_nl_append "slug: ".data _ (by decide) hs
  have hsplit : splitNl (marshalFM fm body) =
      "---".data :: titleLine fm :: dateLine fm :: draftLine fm :: tagsLine fm ::
        catsLine fm :: slugLine fm :: "---".data :: splitNl body := by
    unfold marshalFM
    rw [splitNl_append_nl "---".data (by decide), splitNl_append_nl _ hL1,
      splitNl_append_nl _ hL2, splitNl_append_nl _ hL3, splitNl_append_nl _ hL4,
      splitNl_append_nl _ hL5, splitNl_append_nl _ hL6,
      splitNl_append_nl "---".data (by decide)]
  have hextract : extractBlock (titleLine fm :: dateLine fm :: draftLine fm ::
      tagsLine fm :: catsLine fm :: slugLine fm :: "---".data :: splitNl body) =
      some ([titleLine fm, dateLine fm, draftLine fm, tagsLine fm, catsLine fm,
        slugLine fm], splitNl body) := by
    rw [extractBlock_cons_ne _ _ (by
        rw [show titleLine fm = 't' :: ("itle: ".data ++ fm.title.data) from rfl]
        exact cons_ne_marker _ (by decide)),
      extractBlock_cons_ne _ _ (by
        rw [show dateLine fm = 'd' :: ("ate: ".data ++ fm.date.data) from rfl]
        exact cons_ne_marker _ (by decide)),
      extractBlock_cons_ne _ _ (by
        rw [show draftLine fm = 'd' :: ("raft: ".data ++
          (if fm.draft then "true".data else "false".data)) from rfl]
        exact cons_ne_marker _ (by decide)),
      extractBlock_cons_ne _ _ (by
        rw [show tagsLine fm = 't' :: ("ags: ".data ++ renderStrList fm.tags) from rfl]
        exact cons_ne_marker _ (by decide)),
      extractBlock_cons_ne _ _ (by
        rw [show catsLine fm = 'c' :: ("ategories: ".data ++
          renderStrList fm.categories) from rfl]
        exact cons_ne_marker _ (by decide)),
      extractBlock_cons_ne _ _ (by
        rw [show slugLine fm = 's' :: ("lug: ".data ++ fm.slug.data) from rfl]
        exact cons_ne_marker _ (by decide)),
      extractBlock_marker]
  rw [parseFM_cons _ _ _ hsplit, if_pos rfl]
  simp only [hextract, mkFM_marshal, joinNl_splitNl]

theorem data_mk (l : List Char) : (⟨l⟩ : String).data = l := rfl

theorem dropOneSpace_sub (v : List Char) (ch : Char) (h : ch ∈ dropOneSpace v) :
    ch ∈ v := by
  cases v with
  | nil => simp [dropOneSpace] at h
  | cons c rest =>
    simp only [dropOneSpace] at h
    by_cases hc : c = ' '
    · rw [if_pos hc] at h
      exact List.mem_cons_of_mem c h
    · rwa [if_neg hc] at h

theorem splitColon_mem : ∀ (l k v : List Char), splitColon l = some (k, v) →
    ∀ ch ∈ v, ch ∈ l := by
  intro l
  induction l with
  | nil => intro k v h; simp [splitColon] at h
  | cons c rest ih =>
    intro k v h ch hch
    simp only [splitColon] at h
    by_cases hc : c = ':'
    · rw [if_pos hc] at h
      simp only [Option.some.injEq, Prod.mk.injEq] at h
      obtain ⟨rfl, rfl⟩ := h
      exact List.mem_cons_of_mem c hch
    · rw [if_neg hc] at h
      cases hsc : splitColon rest with
      | none => rw [hsc] at h; simp at h
      | some p =>
        obtain ⟨k', v'⟩ := p
        rw [hsc] at h
        simp only [Option.some.injEq, Prod.mk.injEq] at h
        obtain ⟨rfl, rfl⟩ := h
        exact List.mem_cons_of_mem c (ih _ _ hsc ch hch)

theorem lookupField_no_nl : ∀ (lines : List (List Char)),
    (∀ s ∈ lines, '\n' ∉ s) → ∀ (key v : List Char),
    lookupField key lines = some v → '\n' ∉ v := by
  intro lines
  induction lines with
  | nil => intro _ key v h; simp [lookupField] at h
  | cons l rest ih =>
    intro hl key v h
    have hrest : ∀ s ∈ rest, '\n' ∉ s := fun s hs => hl s (List.mem_cons_of_mem l hs)
    simp only [lookupField] at h
    cases hsc : splitColon l with
    | none => rw [hsc] at h; exact ih hrest key v h
    | some p =>
      obtain ⟨k, v'⟩ := p
      rw [hsc] at h
      have h2 : (if k = key then some (dropOneSpace v')
          else lookupField key rest) = some v := h
      by_cases hk : k = key
      · rw [if_pos hk] at h2
        simp only [Option.some.injEq] at h2
        subst h2
        intro hmem
        exact hl l (List.mem_cons_self l rest)
          (splitColon_mem l k v' hsc '\n' (dropOneSpace_sub v' '\n' hmem))
      · rw [if_neg hk] at h2
        exact ih hrest key v h2

theorem extractBlock_sub : ∀ (ls fs bs : List (List Char)),
    extractBlock ls = some (fs, bs) → ∀ s ∈ fs, s ∈ ls := by
  intro ls
  induction ls with
  | nil => intro fs bs h; simp [extractBlock] at h
  | cons l rest ih =>
    intro fs bs h s hs
    simp only [extractBlock] at h
    by_cases hm : l = "---".data
    · rw [if_pos hm] at h
      simp only [Option.some.injEq, Prod.mk.injEq] at h
      obtain ⟨rfl, rfl⟩ := h
      exact absurd hs (List.not_mem_nil s)
    · rw [if_neg hm] at h
      cases hex : extractBlock rest with
      | none => rw [hex] at h; simp at h
      | some p =>
        obtain ⟨fs', bs'⟩ := p
        rw [hex] at h
        simp only [Option.some.injEq, Prod.mk.injEq] at h
        obtain ⟨rfl, rfl⟩ := h
        rcases List.mem_cons.mp hs with rfl | hmem
        · exact List.mem_cons_self s rest
        · exact List.mem_cons_of_mem l (ih fs' bs' hex s hmem)

theorem parseStrList_no_nl (v : List Char) (hv : '\n' ∉ v) :
    ∀ t ∈ parseStrList v, '\n' ∉ t.data := by
  intro t ht
  unfold parseStrList at ht
  by_cases h : v = "[]".data
  · rw [if_pos h] at ht
    exact absurd ht (List.not_mem_nil t)
  · rw [if_neg h] at ht
    simp only [List.mem_singleton] at ht
    subst ht
    exact hv

theorem renderItems_no_nl : ∀ (xs : List String),
    (∀ t ∈ xs, '\n' ∉ t.data) → '\n' ∉ renderItems xs
  | [], _ => List.not_mem_nil _
  | [x], h => by
    show '\n' ∉ x.data
    exact h x (List.mem_singleton.mpr rfl)
  | x :: y :: ys, h => by
    show '\n' ∉ x.data ++ ", ".data ++ renderItems (y :: ys)
    exact no_nl_append _ _
      (no_nl_append _ _ (h x (List.mem_cons_self x (y :: ys))) (by decide))
      (renderItems_no_nl (y :: ys) (fun t ht => h t (List.mem_cons_of_mem x ht)))

theorem renderStrList_no_nl (xs : List String) (h : ∀ t ∈ xs, '\n' ∉ t.data) :
    '\n' ∉ renderStrList xs := by
  cases xs with
  | nil => decide
  | cons x xs' =>
    show '\n' ∉ "[".data ++ renderItems (x :: xs') ++ "]".data
    intro hm
    rcases List.mem_append.mp hm with hm1 | hm2
    · rcases List.mem_append.mp hm1 with hm0 | hmi
      · exact absurd hm0 (by decide)
      · exact renderItems_no_nl _ h hmi
    · exact absurd hm2 (by decide)

/-- Every field value a successful parse produces is single-line (the
parse is line-based). -/
theorem parseFM_no_nl (c : List Char) (fm : FrontMatter) (body : List Char)
    (h : parseFM c = some (fm, body)) :
    '\n' ∉ fm.title.data ∧ '\n' ∉ fm.date.data ∧ '\n' ∉ fm.slug.data ∧
    (∀ t ∈ fm.tags, '\n' ∉ t.data) ∧ (∀ t ∈ fm.categories, '\n' ∉ t.data) := by
  unfold parseFM at h
  cases hsp : splitNl c with
  | nil =>
    rw [hsp] at h
    simp only [Option.some.injEq, Prod.mk.injEq] at h
    obtain ⟨rfl, rfl⟩ := h
    refine ⟨by simp [emptyFM], by simp [emptyFM], by simp [emptyFM], ?_, ?_⟩ <;>
      (intro t ht; exact absurd ht (List.not_mem_nil t))
  | cons first rest =>
    rw [hsp] at h
    have h2 : (if first = "---".data then
        (match extractBlock rest with
         | some (fields, bodyLines) => some (mkFM fields, joinNl bodyLines)
         | none => none)
        else some (emptyFM, c)) = some (fm, body) := h
    by_cases hfst : first = "---".data
    · rw [if_pos hfst] at h2
      cases hex : extractBlock rest with
      | none => rw [hex] at h2; simp at h2
      | some p =>
        obtain ⟨fields, bodyLines⟩ := p
        rw [hex] at h2
        simp only [Option.some.injEq, Prod.mk.injEq] at h2
        obtain ⟨rfl, rfl⟩ := h2
        have hlines : ∀ s ∈ fields, '\n' ∉ s := by
          intro s hsmem
          have hmem : s ∈ rest := extractBlock_sub rest fields bodyLines hex s hsmem
          exact splitNl_no_nl c s (by rw [hsp]; exact List.mem_cons_of_mem _ hmem)
        refine ⟨?_, ?_, ?_, ?_, ?_⟩
        · show '\n' ∉ (lookupField "title".data fields).getD []
          cases hlk : lookupField "title".data fields with
          | none => simp
          | some v =>
            simp only [Option.getD_some]
            exact lookupField_no_nl fields hlines _ v hlk
        · show '\n' ∉ (lookupField "date".data fields).getD []
          cases hlk : lookupField "date".data fields with
          | none => simp
          | some v =>
            simp only [Option.getD_some]
            exact lookupField_no_nl fields hlines _ v hlk
        · show '\n' ∉ (lookupField "slug".data fields).getD []
          cases hlk : lookupField "slug".data fields with
          | none => simp
          | some v =>
            simp only [Option.getD_some]
            exact lookupField_no_nl fields hlines _ v hlk
        · show ∀ t ∈ parseStrList ((lookupField "tags".data fields).getD "[]".data),
            '\n' ∉ t.data
          cases hlk : lookupField "tags".data fields with
          | none => exact parseStrList_no_nl _ (by decide)
          | some v =>
            simp only [Option.getD_some]
            exact parseStrList_no_nl _ (lookupField_no_nl fields hlines _ v hlk)
        · show ∀ t ∈ parseStrList ((lookupField "categories".data fields).getD "[]".data),
            '\n' ∉ t.data
          cases hlk : lookupField "categories".data fields with
          | none => exact parseStrList_no_nl _ (by decide)
          | some v =>
            simp only [Option.getD_some]
            exact parseStrList_no_nl _ (lookupField_no_nl fields hlines _ v hlk)
    · rw [if_neg hfst] at h2
      simp only [Option.some.injEq, Prod.mk.injEq] at h2
      obtain ⟨rfl, rfl⟩ := h2
      refine ⟨by simp [emptyFM], by simp [emptyFM], by simp [emptyFM], ?_, ?_⟩ <;>
        (intro t ht; exact absurd ht (List.not_mem_nil t))

theorem toLowerA_eq_nl (c : Char) (h : toLowerA c = '\n') : c = '\n' := by
  revert h
  unfold toLowerA
  split <;> intro h <;> first | exact h | exact absurd h (by decide)

theorem slugify_no_nl (l : List Char) : '\n' ∉ slugifyL l := by
  intro hm
  simp only [slugifyL, slugifyReplace, List.map_map, List.mem_map,
    Function.comp] at hm
  obtain ⟨c, _, hc⟩ := hm
  have heq : (if isAlnum c then c else '-') = '\n' := toLowerA_eq_nl _ hc
  by_cases ha : isAlnum c = true
  · rw [if_pos ha] at heq
    subst heq
    exact absurd ha (by decide)
  · rw [if_neg ha] at heq
    exact absurd heq (by decide)

theorem fillTitle_eq (ft : String) (fm : FrontMatter) :
    fillTitle ft fm = FrontMatter.mk (if fm.title = "" then ft else fm.title)
      fm.date fm.draft fm.tags fm.categories fm.slug := by
  obtain ⟨t, d, dr, tg, ct, sl⟩ := fm
  by_cases h : t = "" <;> simp [fillTitle, h]

theorem fillSlug_eq (fm : FrontMatter) :
    fillSlug fm = FrontMatter.mk fm.title fm.date fm.draft fm.tags fm.categories
      (if fm.slug = "" then slugifyS fm.title else fm.slug) := by
  obtain ⟨t, d, dr, tg, ct, sl⟩ := fm
  by_cases h : sl = "" <;> simp [fillSlug, h]

theorem fillDate_eq (env : DateEnv) (fm : FrontMatter) :
    fillDate env fm = FrontMatter.mk fm.title (dateChain env fm.date) fm.draft
      fm.tags fm.categories fm.slug := by
  obtain ⟨g, st, now⟩ := env
  obtain ⟨t, d, dr, tg, ct, sl⟩ := fm
  simp only [fillDate, dateChain]
  cases g <;> cases st <;> split_ifs <;> simp_all

theorem dateChain_no_nl (env : DateEnv) (d : String)
    (hg : ∀ x, env.git = some x → '\n' ∉ x.data)
    (hst : ∀ x, env.stat = some x → '\n' ∉ x.data)
    (hnow : '\n' ∉ env.now.data) (hd : '\n' ∉ d.data) :
    '\n' ∉ (dateChain env d).data := by
  obtain ⟨g, st, now⟩ := env
  simp only [dateChain]
  cases g with
  | none =>
    cases st with
    | none => split_ifs <;> simp_all
    | some x2 =>
      have h2 := hst x2 rfl
      split_ifs <;> simp_all
  | some x1 =>
    have h1 := hg x1 rfl
    cases st with
    | none => split_ifs <;> simp_all
    | some x2 =>
      have h2 := hst x2 rfl
      split_ifs <;> simp_all

theorem dateChain_idem (env : DateEnv) (d : String) :
    dateChain env (dateChain env d) = dateChain env d := by
  obtain ⟨g, st, now⟩ := env
  simp only [dateChain]
  cases g <;> cases st <;> split_ifs <;> simp_all

/-- C7: the Front-Matter Normalizer is idempotent on the title, slug and
date fields: running it on its own output embeds the same three values in
the metadata block.  The hypotheses say the environment-supplied values
(file-derived title, dates, clock) are single-line, which the program
guarantees (file names and RFC 3339 timestamps contain no newline). -/
theorem c7_normalizer_idempotent (ft : String) (env : DateEnv) (c out1 : String)
    (hft : '\n' ∉ ft.data)
    (hg : ∀ d, env.git = some d → '\n' ∉ d.data)
    (hst : ∀ d, env.stat = some d → '\n' ∉ d.data)
    (hnow : '\n' ∉ env.now.data)
    (h1 : normalizeFM ft env c = some out1) :
    ∃ out2, normalizeFM ft env out1 = some out2 ∧
      parsedTriple out2 = parsedTriple out1 := by
  unfold normalizeFM at h1
  cases hp : parseFM c.data with
  | none => rw [hp] at h1; exact absurd h1 (by simp)
  | some p =>
    obtain ⟨fm0, body0⟩ := p
    rw [hp] at h1
    simp only [Option.some.injEq] at h1
    subst h1
    obtain ⟨ht0, hd0, hs0, htg0, hct0⟩ := parseFM_no_nl c.data fm0 body0 hp
    have hfm1 : fillDate env (fillSlug (fillTitle ft fm0)) =
        FrontMatter.mk (if fm0.title = "" then ft else fm0.title)
          (dateChain env fm0.date) fm0.draft fm0.tags fm0.categories
          (if fm0.slug = "" then
            slugifyS (if fm0.title = "" then ft else fm0.title) else fm0.slug) := by
      rw [fillTitle_eq, fillSlug_eq, fillDate_eq]
    rw [hfm1]
    have hT1 : '\n' ∉ (if fm0.title = "" then ft else fm0.title).data := by
      split_ifs
      · exact hft
      · exact ht0
    have hS1 : '\n' ∉ (if fm0.slug = "" then
        slugifyS (if fm0.title = "" then ft else fm0.title) else fm0.slug).data := by
      by_cases hsl : fm0.slug = ""
      · rw [if_pos hsl]
        exact slugify_no_nl _
      · rw [if_neg hsl]
        exact hs0
    have hD1 : '\n' ∉ (dateChain env fm0.date).data :=
      dateChain_no_nl env fm0.date hg hst hnow hd0
    have htags1 : '\n' ∉ renderStrList fm0.tags := renderStrList_no_nl fm0.tags htg0
    have hcats1 : '\n' ∉ renderStrList fm0.categories :=
      renderStrList_no_nl fm0.categories hct0
    have hpm1 := parseFM_marshal
      (FrontMatter.mk (if fm0.title = "" then ft else fm0.title)
        (dateChain env fm0.date) fm0.draft fm0.tags fm0.categories
        (if fm0.slug = "" then
          slugifyS (if fm0.title = "" then ft else fm0.title) else fm0.slug))
      body0 hT1 hD1 hS1 htags1 hcats1
    unfold normalizeFM
    rw [data_mk, hpm1]
    refine ⟨_, rfl, ?_⟩
    have hT2 : (if (if fm0.title = "" then ft else fm0.title) = "" then ft
        else (if fm0.title = "" then ft else fm0.title)) =
        (if fm0.title = "" then ft else fm0.title) := by
      by_cases h0 : fm0.title = ""
      · simp only [if_pos h0]
        split_ifs <;> rfl
      · simp only [if_neg h0]
    have hS2 : (if (if fm0.slug = "" then
          slugifyS (if fm0.title = "" then ft else fm0.title) else fm0.slug) = "" then
          slugifyS (if fm0.title = "" then ft else fm0.title)
        else (if fm0.slug = "" then
          slugifyS (if fm0.title = "" then ft else fm0.title) else fm0.slug)) =
        (if fm0.slug = "" then
          slugifyS (if fm0.title = "" then ft else fm0.title) else fm0.slug) := by
      by_cases hsl : fm0.slug = ""
      · simp only [if_pos hsl]
        split_ifs <;> rfl
      · simp only [if_neg hsl]
    rw [fillTitle_eq, fillSlug_eq, fillDate_eq]
    simp only [hT2, hS2, dateChain_idem]
    have htags2 : '\n' ∉ renderStrList (parseStrList (renderStrList fm0.tags)) :=
      renderStrList_no_nl _ (parseStrList_no_nl _ htags1)
    have hcats2 : '\n' ∉ renderStrList (parseStrList (renderStrList fm0.categories)) :=
      renderStrList_no_nl _ (parseStrList_no_nl _ hcats1)
    have hpm2 := parseFM_marshal
      (FrontMatter.mk (if fm0.title = "" then ft else fm0.title)
        (dateChain env fm0.date) fm0.draft
        (parseStrList (renderStrList fm0.tags))
        (parseStrList (renderStrList fm0.categories))
        (if fm0.slug = "" then
          slugifyS (if fm0.title = "" then ft else fm0.title) else fm0.slug))
      body0 hT1 hD1 hS1 htags2 hcats2
    simp only [parsedTriple, data_mk, hpm1, hpm2, Option.map_some']

theorem c7_normalizer_idempotent_witness :
    ∃ out2, normalizeFM "note" (DateEnv.mk none none "2024-01-01T00:00:00Z")
        "---\ntitle: note\ndate: 2024-01-01T00:00:00Z\ndraft: false\ntags: []\ncategories: []\nslug: note\n---\nhello" = some out2 ∧
      parsedTriple out2 = parsedTriple
        "---\ntitle: note\ndate: 2024-01-01T00:00:00Z\ndraft: false\ntags: []\ncategories: []\nslug: note\n---\nhello" :=
  c7_normalizer_idempotent "note" (DateEnv.mk none none "2024-01-01T00:00:00Z")
    "hello"
    "---\ntitle: note\ndate: 2024-01-01T00:00:00Z\ndraft: false\ntags: []\ncategories: []\nslug: note\n---\nhello"
    (by decide) (by intro d h; exact absurd h (by simp))
    (by intro d h; exact absurd h (by simp)) (by decide) (by decide)

/-! ## C2: non-Markdown files are not copied byte-for-byte -/

/-- C2: `convertFile` never looks at the extension: the non-Markdown file
`image.png` comes out with a front-matter block prepended, not
byte-identical (only the `main.go` variant that copies first and then
post-processes `.md` paths leaves it untouched). -/
theorem c2_non_markdown_processed :
    convertFileP (DateEnv.mk none none "2024-01-01T00:00:00Z") "image.png"
        (Except.ok "PNGDATA") =
      Except.ok "---\ntitle: image.png\ndate: 2024-01-01T00:00:00Z\ndraft: false\ntags: []\ncategories: []\nslug: image-png\n---\nPNGDATA" ∧
    (Except.ok "---\ntitle: image.png\ndate: 2024-01-01T00:00:00Z\ndraft: false\ntags: []\ncategories: []\nslug: image-png\n---\nPNGDATA"
        : Except String String) ≠ Except.ok "PNGDATA" := by
  refine ⟨by decide, by decide⟩

end ObsidianForHugo
